import Mathlib

/-!
Verification of the FarmAI forum moderation core.

This file embeds, in Lean 4, the content-moderation scanner
(`backend/utils/contentModeration.js`: `normalizeText`,
`containsAbusiveLanguage`, `moderateContent`, `abusiveWords`) and the
forum warning ledger and access gate (`backend/routes/forum.js`:
`handleContentModeration`, `checkForumAccess`), and proves the spec's
testable properties about them.

Modelling conventions:
- JavaScript strings are Lean `String`s viewed as their `List Char` of
  Unicode scalar values.  Every input used in concrete theorems is ASCII,
  where the two representations agree.
- `typeof text !== 'string'`, `null` and `undefined` inputs are modelled
  by the `JSInput.nonString` constructor; the empty string (falsy in JS)
  is modelled as `JSInput.str ""`.
- Timestamps are `Nat` milliseconds since the epoch; `setDate(+7)` is
  modelled as adding `7 * 86400000` ms (no DST, as with UTC).
- The regex `/[^\w\s]/` keeps ASCII word characters `[A-Za-z0-9_]` and
  JavaScript whitespace; the regex `/(.)\1{4,}/`'s `.` does not match
  the line terminators `\n`, `\r`, U+2028, U+2029.
-/

namespace FarmAI

/-- ASCII word character, the JS regex class `\w` = `[A-Za-z0-9_]`. -/
def isWordChar (c : Char) : Bool :=
  decide ('a' ≤ c ∧ c ≤ 'z') || decide ('A' ≤ c ∧ c ≤ 'Z') ||
  decide ('0' ≤ c ∧ c ≤ '9') || c == '_'

/-- JS regex class `\s`: ASCII whitespace plus the Unicode space characters. -/
def isSpaceChar (c : Char) : Bool :=
  let n := c.toNat
  n == 32 || n == 9 || n == 10 || n == 11 || n == 12 || n == 13 ||
  n == 160 || n == 5760 || (decide (8192 ≤ n) && decide (n ≤ 8202)) ||
  n == 8232 || n == 8233 || n == 8239 || n == 8287 || n == 12288 || n == 65279

/-- ASCII case folding, as `String.prototype.toLowerCase` acts on ASCII. -/
def toLowerCh (c : Char) : Char :=
  if 'A' ≤ c ∧ c ≤ 'Z' then Char.ofNat (c.toNat + 32) else c

/-- Second stage of `normalizeText`: the replace of `/[^\w\s]/g` by a space,
applied to an already lowercased character. -/
def ppKeep (c : Char) : Char :=
  if isWordChar c || isSpaceChar c then c else ' '

/-- Per-character normalization: lowercase, then map non-word non-space
characters to a space. -/
def preprocess (c : Char) : Char := ppKeep (toLowerCh c)

/-- Tail of the tokenizer; `acc` holds the current token reversed. -/
def toksAux (acc : List Char) : List Char → List (List Char)
  | [] => if acc = [] then [] else [acc.reverse]
  | c :: cs =>
    if isSpaceChar c then
      if acc = [] then toksAux [] cs else acc.reverse :: toksAux [] cs
    else toksAux (c :: acc) cs

/-- Maximal runs of non-whitespace characters of a character list, in order.
Splitting on `isSpaceChar` is what `.replace(/\s+/g, ' ').trim()` does to
the token structure of the string. -/
def toks (l : List Char) : List (List Char) := toksAux [] l

/-- Join tokens with single spaces: the collapsed, trimmed string. -/
def joinT : List (List Char) → List Char
  | [] => []
  | [w] => w
  | w :: x :: ws => w ++ ' ' :: joinT (x :: ws)

/-- The source's `normalizeText`: lowercase, strip `[^\w\s]` to spaces,
collapse whitespace runs to single spaces, trim. -/
def normalizeText (l : List Char) : List Char :=
  joinT (toks (l.map preprocess))

/-- Boolean test for `w` being a leading block of `t`. -/
def segPre : List Char → List Char → Bool
  | [], _ => true
  | _ :: _, [] => false
  | a :: as, b :: bs => a == b && segPre as bs

/-- Boolean contiguous-substring test, the JS `String.prototype.includes`. -/
def segCheck (w : List Char) : List Char → Bool
  | [] => segPre w []
  | b :: bs => segPre w (b :: bs) || segCheck w bs

/-- `w` occurs contiguously inside `t`. -/
def ContainsSeg (w t : List Char) : Prop := ∃ l r, t = l ++ w ++ r

/-- The source's `abusiveWords` list, verbatim. -/
def abusiveWords : List String :=
  ["damn", "hell", "crap", "stupid", "idiot", "fool",
   "f***", "s***", "b****", "a**", "a***",
   "shut up", "you are wrong", "you dont know", "you are lying",
   "hate you", "kill yourself", "you should die",
   "buy now", "click here", "free money", "get rich quick"]

/-- The source's word loop: terms whose normalized form occurs in the
normalized text, in list order (the push order of the JS loop). -/
def scanWordHits (nt : List Char) : List String :=
  abusiveWords.filter (fun w => segCheck (normalizeText w.data) nt)

/-- Number of ASCII uppercase characters, `text.match(/[A-Z]/g).length`. -/
def countCaps (l : List Char) : Nat :=
  (l.filter (fun c => decide ('A' ≤ c ∧ c ≤ 'Z'))).length

/-- JS line terminators, which `.` in a regex does not match. -/
def isLineTerm (c : Char) : Bool :=
  c == '\n' || c == '\r' || c.toNat == 8232 || c.toNat == 8233

/-- The regex `/(.)\1{4,}/.test(text)`: some non-line-terminator character
followed by four more copies of itself. -/
def hasRepeat5 : List Char → Bool
  | a :: b :: c :: d :: e :: rest =>
    (!isLineTerm a && a == b && a == c && a == d && a == e) ||
      hasRepeat5 (b :: c :: d :: e :: rest)
  | _ => false

/-- Order-preserving de-duplication with the already-seen accumulator:
`[...new Set(array)]`. -/
def dedupAux : List String → List String → List String
  | [], _ => []
  | x :: xs, seen =>
    if x ∈ seen then dedupAux xs seen else x :: dedupAux xs (x :: seen)

/-- `[...new Set(detectedWords)]`: keep the first occurrence of each entry. -/
def dedupFirst (l : List String) : List String := dedupAux l []

/-- The `severity` field of the scan result. -/
inductive Severity where
  | low
  | medium
  | high
deriving DecidableEq, Repr

/-- A JS value passed as the `text` argument: a string, or any non-string
value (`null`, `undefined`, numbers, objects, ...). -/
inductive JSInput where
  | str (s : String)
  | nonString
deriving DecidableEq, Repr

/-- Return shape of `containsAbusiveLanguage`.  The early-return object
carries no `severity` property, hence the `Option`. -/
structure ScanResult where
  isAbusive : Bool
  detectedWords : List String
  severity : Option Severity
deriving DecidableEq, Repr

/-- `excessiveCaps || repeatedChars`: more than half of the original
characters are ASCII uppercase and the text is longer than 10 characters,
or some character repeats 5+ times consecutively. -/
def spamFlag (l : List Char) : Bool :=
  (decide (l.length < 2 * countCaps l) && decide (10 < l.length)) ||
    hasRepeat5 l

/-- The `detectedWords` array right before the `new Set` de-duplication:
the word-loop hits, plus the `spam_pattern` token when a pattern fired. -/
def rawDetected (s : String) : List String :=
  if spamFlag s.data
  then scanWordHits (normalizeText s.data) ++ ["spam_pattern"]
  else scanWordHits (normalizeText s.data)

/-- The source's `containsAbusiveLanguage`.  `isAbusive` and `severity`
are computed from the detected list before de-duplication, exactly as in
the JS return expression. -/
def containsAbusiveLanguage : JSInput → ScanResult
  | .nonString => ⟨false, [], none⟩
  | .str text =>
    if text.data.isEmpty then ⟨false, [], none⟩
    else
      ⟨decide (0 < (rawDetected text).length), dedupFirst (rawDetected text),
        some (if 2 < (rawDetected text).length then .high
          else if 0 < (rawDetected text).length then .medium else .low)⟩

/-- `title ? `${title} ${content}` : content` — the empty string is falsy. -/
def fullText (content title : String) : String :=
  if title = "" then content else title ++ " " ++ content

/-- The source's `moderateContent`. -/
def moderateContent (content title : String) : ScanResult :=
  containsAbusiveLanguage (.str (fullText content title))

/-! ### Substring predicate -/

theorem ContainsSeg.refl (w : List Char) : ContainsSeg w w :=
  ⟨[], [], by simp⟩

theorem ContainsSeg.trans {a b c : List Char}
    (h1 : ContainsSeg a b) (h2 : ContainsSeg b c) : ContainsSeg a c := by
  obtain ⟨l1, r1, rfl⟩ := h1
  obtain ⟨l2, r2, rfl⟩ := h2
  exact ⟨l2 ++ l1, r1 ++ r2, by simp⟩

theorem ContainsSeg.of_mem {c : Char} {l : List Char} (h : c ∈ l) :
    ContainsSeg [c] l := by
  obtain ⟨s, t, rfl⟩ := List.append_of_mem h
  exact ⟨s, t, by simp⟩

theorem ContainsSeg.map {m t : List Char} (f : Char → Char)
    (h : ContainsSeg m t) : ContainsSeg (m.map f) (t.map f) := by
  obtain ⟨l, r, rfl⟩ := h
  exact ⟨l.map f, r.map f, by simp⟩

theorem segPre_iff {w : List Char} : ∀ {t : List Char},
    segPre w t = true ↔ ∃ r, t = w ++ r := by
  induction w with
  | nil => intro t; simp only [segPre, true_iff]; exact ⟨t, by simp⟩
  | cons a as ih =>
    intro t
    cases t with
    | nil =>
      simp only [segPre, Bool.false_eq_true, false_iff]
      rintro ⟨r, h⟩; simp at h
    | cons b bs =>
      simp only [segPre, Bool.and_eq_true, beq_iff_eq, ih, List.cons_append]
      constructor
      · rintro ⟨rfl, r, rfl⟩; exact ⟨r, rfl⟩
      · rintro ⟨r, h⟩
        rw [List.cons_eq_cons] at h
        exact ⟨h.1.symm, r, h.2⟩

theorem segCheck_iff {w : List Char} : ∀ {t : List Char},
    segCheck w t = true ↔ ContainsSeg w t := by
  intro t
  induction t with
  | nil =>
    simp only [segCheck, segPre_iff, ContainsSeg]
    constructor
    · rintro ⟨r, h⟩
      exact ⟨[], r, by simpa using h⟩
    · rintro ⟨l, r, h⟩
      obtain ⟨hlw, hr⟩ := List.append_eq_nil.mp h.symm
      obtain ⟨hl, hw⟩ := List.append_eq_nil.mp hlw
      exact ⟨[], by simp [hw]⟩
  | cons b bs ih =>
    simp only [segCheck, Bool.or_eq_true, segPre_iff, ih]
    constructor
    · rintro (⟨r, h⟩ | ⟨l, r, h⟩)
      · exact ⟨[], r, by simpa using h⟩
      · exact ⟨b :: l, r, by simp [h]⟩
    · rintro ⟨l, r, h⟩
      cases l with
      | nil => exact Or.inl ⟨r, by simpa using h⟩
      | cons x l' =>
        have h' : b :: bs = x :: (l' ++ w ++ r) := by simpa using h
        exact Or.inr ⟨l', r, (List.cons_eq_cons.mp h').2⟩

/-! ### Tokenizer lemmas -/

theorem toks_nil : toks [] = [] := rfl

theorem toks_cons_space {c : Char} (hc : isSpaceChar c = true)
    (cs : List Char) : toks (c :: cs) = toks cs := by
  rw [toks, toksAux, if_pos hc, if_pos rfl, toks]

theorem toksAux_acc : ∀ (l acc : List Char), acc ≠ [] →
    toksAux acc l =
      (acc.reverse ++ l.takeWhile (fun d => !isSpaceChar d)) ::
        toks (l.dropWhile (fun d => !isSpaceChar d)) := by
  intro l
  induction l with
  | nil =>
    intro acc hacc
    rw [toksAux, if_neg hacc]
    simp [toks_nil]
  | cons c cs ih =>
    intro acc hacc
    by_cases hc : isSpaceChar c = true
    · rw [toksAux, if_pos hc, if_neg hacc]
      simp only [List.takeWhile_cons, List.dropWhile_cons, hc,
        Bool.not_true, Bool.false_eq_true, if_false, List.append_nil]
      rw [toks_cons_space hc, toks]
    · have hc' : isSpaceChar c = false := by simpa using hc
      rw [toksAux, if_neg (by simp [hc']), ih (c :: acc) (by simp)]
      simp [List.takeWhile_cons, List.dropWhile_cons, hc']

theorem toks_cons_nonspace {c : Char} (hc : isSpaceChar c = false)
    (cs : List Char) :
    toks (c :: cs) = (c :: cs.takeWhile (fun d => !isSpaceChar d)) ::
      toks (cs.dropWhile (fun d => !isSpaceChar d)) := by
  rw [toks, toksAux, if_neg (by simp [hc]), toksAux_acc cs [c] (by simp)]
  simp

/-! ### Join lemmas -/

theorem joinT_nil : joinT [] = [] := rfl

theorem joinT_one (w : List Char) : joinT [w] = w := rfl

theorem joinT_cons_ne (u : List Char) {l : List (List Char)} (h : l ≠ []) :
    joinT (u :: l) = u ++ ' ' :: joinT l := by
  cases l with
  | nil => exact absurd rfl h
  | cons x ws => rfl

theorem joinT_cons_cons (c : Char) (h : List Char) (ts : List (List Char)) :
    joinT ((c :: h) :: ts) = c :: joinT (h :: ts) := by
  cases ts with
  | nil => rfl
  | cons x ws => rfl

theorem joinT_snoc_ext : ∀ (ts : List (List Char)) (w e : List Char),
    joinT (ts ++ [w ++ e]) = joinT (ts ++ [w]) ++ e := by
  intro ts
  induction ts with
  | nil => intro w e; rfl
  | cons u us ih =>
    intro w e
    rw [List.cons_append, List.cons_append,
      joinT_cons_ne u (by simp), joinT_cons_ne u (by simp), ih]
    simp

theorem joinT_snoc_ne : ∀ {ts : List (List Char)}, ts ≠ [] →
    ∀ (z : List Char), joinT (ts ++ [z]) = joinT ts ++ ' ' :: z := by
  intro ts
  induction ts with
  | nil => intro h; exact absurd rfl h
  | cons u us ih =>
    intro _ z
    cases us with
    | nil => rfl
    | cons v vs =>
      rw [List.cons_append, joinT_cons_ne u (by simp),
        joinT_cons_ne u (by simp), ih (by simp)]
      simp

/-! ### takeWhile / dropWhile over an append -/

theorem tw_append_all {α : Type} {p : α → Bool} :
    ∀ {xs : List α}, (∀ a ∈ xs, p a = true) → ∀ (ys : List α),
      (xs ++ ys).takeWhile p = xs ++ ys.takeWhile p ∧
      (xs ++ ys).dropWhile p = ys.dropWhile p := by
  intro xs
  induction xs with
  | nil => intro _ ys; simp
  | cons x xs ih =>
    intro hall ys
    have hx : p x = true := hall x (by simp)
    have h' : ∀ a ∈ xs, p a = true := fun a ha => hall a (by simp [ha])
    simp [List.takeWhile_cons, List.dropWhile_cons, hx, ih h' ys]

theorem tw_append_break {α : Type} {p : α → Bool} :
    ∀ {xs : List α}, ¬ (∀ a ∈ xs, p a = true) → ∀ (ys : List α),
      (xs ++ ys).takeWhile p = xs.takeWhile p ∧
      (xs ++ ys).dropWhile p = xs.dropWhile p ++ ys := by
  intro xs
  induction xs with
  | nil => intro h; exact absurd (by simp) h
  | cons x xs ih =>
    intro hnot ys
    by_cases hx : p x = true
    · have h' : ¬ ∀ a ∈ xs, p a = true := by
        intro hxs
        exact hnot (by
          intro a ha
          rcases List.mem_cons.mp ha with rfl | ha'
          · exact hx
          · exact hxs a ha')
      simp [List.takeWhile_cons, List.dropWhile_cons, hx, ih h' ys]
    · have hx' : p x = false := by simpa using hx
      simp [List.takeWhile_cons, List.dropWhile_cons, hx']

/-! ### Effect of appending one character on the token list -/

/-- Appending one character either leaves the token list unchanged (a
whitespace character), extends the last token, or starts a new token. -/
def SnocSpec (c : Char) (x : List Char) : Prop :=
  (isSpaceChar c = true → toks (x ++ [c]) = toks x) ∧
  (isSpaceChar c = false →
    (∃ ts w, toks x = ts ++ [w] ∧ toks (x ++ [c]) = ts ++ [w ++ [c]]) ∨
    toks (x ++ [c]) = toks x ++ [[c]])

theorem snocSpec_nil (c : Char) : SnocSpec c [] := by
  constructor
  · intro hc
    rw [List.nil_append, toks_cons_space hc]
  · intro hc
    right
    rw [List.nil_append, toks_cons_nonspace hc]
    simp [toks_nil]

theorem toks_snoc_aux (c : Char) :
    ∀ (n : Nat) (x : List Char), x.length ≤ n → SnocSpec c x := by
  intro n
  induction n with
  | zero =>
    intro x hx
    have : x = [] := List.length_eq_zero.mp (Nat.le_zero.mp hx)
    subst this
    exact snocSpec_nil c
  | succ n ihn =>
    intro x hx
    cases x with
    | nil => exact snocSpec_nil c
    | cons d xs =>
      have hxs : xs.length ≤ n := by
        simp only [List.length_cons] at hx; omega
      by_cases hd : isSpaceChar d = true
      · have e1 : toks ((d :: xs) ++ [c]) = toks (xs ++ [c]) := by
          rw [List.cons_append, toks_cons_space hd]
        have e2 : toks (d :: xs) = toks xs := toks_cons_space hd xs
        constructor
        · intro hc
          rw [e1, (ihn xs hxs).1 hc, e2]
        · intro hc
          rcases (ihn xs hxs).2 hc with ⟨ts, w, h1, h2⟩ | h
          · exact Or.inl ⟨ts, w, by rw [e2, h1], by rw [e1, h2]⟩
          · exact Or.inr (by rw [e1, h, e2])
      · have hd' : isSpaceChar d = false := by simpa using hd
        by_cases hall : ∀ a ∈ xs, (fun z => !isSpaceChar z) a = true
        · have htw : xs.takeWhile (fun z => !isSpaceChar z) = xs ∧
              xs.dropWhile (fun z => !isSpaceChar z) = [] := by
            have h0 := tw_append_all hall []
            simpa using h0
          have happ := tw_append_all hall [c]
          constructor
          · intro hc
            have hqc : (fun z => !isSpaceChar z) c = false := by simp [hc]
            rw [List.cons_append, toks_cons_nonspace hd',
              toks_cons_nonspace hd' xs, happ.1, happ.2, htw.1, htw.2,
              toks_nil]
            simp [List.takeWhile_cons, List.dropWhile_cons, hqc,
              toks_cons_space hc, toks_nil]
          · intro hc
            have hqc : (fun z => !isSpaceChar z) c = true := by simp [hc]
            left
            refine ⟨[], d :: xs, ?_, ?_⟩
            · rw [toks_cons_nonspace hd' xs, htw.1, htw.2, toks_nil]
              simp
            · rw [List.cons_append, toks_cons_nonspace hd', happ.1, happ.2]
              simp [List.takeWhile_cons, List.dropWhile_cons, hqc, toks_nil]
        · have hbr := tw_append_break hall [c]
          have hdl : (xs.dropWhile (fun z => !isSpaceChar z)).length ≤ n :=
            le_trans ((List.dropWhile_sublist _).length_le) hxs
          have ihd := ihn _ hdl
          have e1 : toks ((d :: xs) ++ [c]) =
              (d :: xs.takeWhile (fun z => !isSpaceChar z)) ::
                toks (xs.dropWhile (fun z => !isSpaceChar z) ++ [c]) := by
            rw [List.cons_append, toks_cons_nonspace hd', hbr.1, hbr.2]
          have e2 : toks (d :: xs) =
              (d :: xs.takeWhile (fun z => !isSpaceChar z)) ::
                toks (xs.dropWhile (fun z => !isSpaceChar z)) :=
            toks_cons_nonspace hd' xs
          constructor
          · intro hc
            rw [e1, ihd.1 hc, e2]
          · intro hc
            rcases ihd.2 hc with ⟨ts, w, h1, h2⟩ | h
            · refine Or.inl ⟨(d :: xs.takeWhile (fun z => !isSpaceChar z))
                :: ts, w, ?_, ?_⟩
              · rw [e2, h1]; rfl
              · rw [e1, h2]; rfl
            · refine Or.inr ?_
              rw [e1, h, e2]
              rfl

theorem toks_snoc (c : Char) (x : List Char) : SnocSpec c x :=
  toks_snoc_aux c x.length x le_rfl

/-! ### Normalization is monotone with respect to substrings -/

theorem seg_joinT_cons (c : Char) (t : List Char) :
    ContainsSeg (joinT (toks t)) (joinT (toks (c :: t))) := by
  by_cases hc : isSpaceChar c = true
  · rw [toks_cons_space hc]
    exact ContainsSeg.refl _
  · have hc' : isSpaceChar c = false := by simpa using hc
    cases t with
    | nil =>
      rw [toks_cons_nonspace hc']
      exact ⟨[], [c], by simp [toks_nil, joinT_nil, joinT_one]⟩
    | cons d ds =>
      by_cases hd : isSpaceChar d = true
      · have hqd : (fun z => !isSpaceChar z) d = false := by simp [hd]
        rw [toks_cons_nonspace hc']
        simp only [List.takeWhile_cons, List.dropWhile_cons, hqd,
          Bool.false_eq_true, if_false]
        cases hts : toks (d :: ds) with
        | nil => exact ⟨[], [c], by simp [joinT_nil, joinT_one]⟩
        | cons y ys =>
          rw [joinT_cons_ne [c] (by simp)]
          exact ⟨[c, ' '], [], by simp⟩
      · have hd' : isSpaceChar d = false := by simpa using hd
        have hqd : (fun z => !isSpaceChar z) d = true := by simp [hd']
        rw [toks_cons_nonspace hc', toks_cons_nonspace hd' ds]
        simp only [List.takeWhile_cons, List.dropWhile_cons, hqd, if_true]
        simp only [joinT_cons_cons]
        exact ⟨[c], [], by simp⟩

theorem seg_joinT_snoc (c : Char) (t : List Char) :
    ContainsSeg (joinT (toks t)) (joinT (toks (t ++ [c]))) := by
  by_cases hc : isSpaceChar c = true
  · rw [(toks_snoc c t).1 hc]
    exact ContainsSeg.refl _
  · have hc' : isSpaceChar c = false := by simpa using hc
    rcases (toks_snoc c t).2 hc' with ⟨ts, w, h1, h2⟩ | h
    · rw [h1, h2, joinT_snoc_ext]
      exact ⟨[], [c], by simp⟩
    · rw [h]
      cases hts : toks t with
      | nil => exact ⟨[c], [], by simp [hts, joinT_nil, joinT_one]⟩
      | cons y ys =>
        rw [← hts, joinT_snoc_ne (by rw [hts]; simp) [c]]
        exact ⟨[], ' ' :: [c], by simp⟩

theorem seg_joinT_appendL : ∀ (l t : List Char),
    ContainsSeg (joinT (toks t)) (joinT (toks (l ++ t))) := by
  intro l
  induction l with
  | nil => intro t; simpa using ContainsSeg.refl (joinT (toks t))
  | cons c l' ih =>
    intro t
    exact (ih t).trans (by simpa using seg_joinT_cons c (l' ++ t))

theorem seg_joinT_appendR : ∀ (r t : List Char),
    ContainsSeg (joinT (toks t)) (joinT (toks (t ++ r))) := by
  intro r
  induction r with
  | nil => intro t; simpa using ContainsSeg.refl (joinT (toks t))
  | cons c r' ih =>
    intro t
    have h1 := seg_joinT_snoc c t
    have h2 := ih (t ++ [c])
    rw [List.append_assoc] at h2
    exact h1.trans (by simpa using h2)

/-- Substring monotonicity of the full normalization: if `m` occurs
contiguously in `t`, the normalization of `m` occurs contiguously in the
normalization of `t`. -/
theorem seg_normalize_mono {m t : List Char} (h : ContainsSeg m t) :
    ContainsSeg (normalizeText m) (normalizeText t) := by
  obtain ⟨l, r, rfl⟩ := h
  show ContainsSeg (joinT (toks (m.map preprocess)))
    (joinT (toks ((l ++ m ++ r).map preprocess)))
  rw [List.map_append, List.map_append]
  have h1 := seg_joinT_appendR (r.map preprocess) (m.map preprocess)
  have h2 := seg_joinT_appendL (l.map preprocess)
    (m.map preprocess ++ r.map preprocess)
  rw [← List.append_assoc] at h2
  exact h1.trans h2

/-! ### Scanner result lemmas -/

theorem mem_dedupAux : ∀ (l seen : List String) (a : String),
    a ∈ dedupAux l seen ↔ a ∈ l ∧ a ∉ seen := by
  intro l
  induction l with
  | nil => simp [dedupAux]
  | cons x xs ih =>
    intro seen a
    by_cases hx : x ∈ seen
    · rw [dedupAux, if_pos hx, ih]
      constructor
      · rintro ⟨ha, hs⟩
        exact ⟨List.mem_cons_of_mem _ ha, hs⟩
      · rintro ⟨ha, hs⟩
        rcases List.mem_cons.mp ha with rfl | h
        · exact absurd hx hs
        · exact ⟨h, hs⟩
    · rw [dedupAux, if_neg hx]
      simp only [List.mem_cons, ih]
      constructor
      · rintro (rfl | ⟨ha, hs⟩)
        · exact ⟨Or.inl rfl, hx⟩
        · exact ⟨Or.inr ha, fun hseen => hs (Or.inr hseen)⟩
      · rintro ⟨ha, hs⟩
        by_cases hax : a = x
        · exact Or.inl hax
        · rcases ha with rfl | ha'
          · exact Or.inl rfl
          · exact Or.inr ⟨ha', by simp [hax, hs]⟩

theorem mem_dedupFirst (l : List String) (a : String) :
    a ∈ dedupFirst l ↔ a ∈ l := by
  rw [dedupFirst, mem_dedupAux]
  simp

theorem scan_str_ne (s : String) (h : s.data.isEmpty = false) :
    containsAbusiveLanguage (.str s) =
      ⟨decide (0 < (rawDetected s).length), dedupFirst (rawDetected s),
        some (if 2 < (rawDetected s).length then .high
          else if 0 < (rawDetected s).length then .medium else .low)⟩ := by
  rw [containsAbusiveLanguage, if_neg (by simp [h])]

theorem mem_rawDetected_of_hit {w : String} {s : String}
    (h : w ∈ scanWordHits (normalizeText s.data)) : w ∈ rawDetected s := by
  rw [rawDetected]
  by_cases hf : spamFlag s.data = true
  · rw [if_pos hf]
    exact List.mem_append_left _ h
  · rw [if_neg hf]
    exact h

/-- A term of the word list whose normalized form occurs, as a contiguous
segment, in the normalized text is detected and flags the scan. -/
theorem scan_detect {w : String} (hw : w ∈ abusiveWords) {s : String}
    (hne : s.data ≠ [])
    (hseg : ContainsSeg (normalizeText w.data) (normalizeText s.data)) :
    (containsAbusiveLanguage (.str s)).isAbusive = true ∧
      w ∈ (containsAbusiveLanguage (.str s)).detectedWords := by
  have hemp : s.data.isEmpty = false := by
    cases hd : s.data with
    | nil => exact absurd hd hne
    | cons a l => simp
  have hhit : w ∈ scanWordHits (normalizeText s.data) :=
    List.mem_filter.mpr ⟨hw, segCheck_iff.mpr hseg⟩
  have hmem : w ∈ rawDetected s := mem_rawDetected_of_hit hhit
  rw [scan_str_ne s hemp]
  refine ⟨?_, (mem_dedupFirst _ _).mpr hmem⟩
  simp only [decide_eq_true_eq]
  exact List.length_pos.mpr (List.ne_nil_of_mem hmem)

/-! ### Warning ledger and access gate (`backend/routes/forum.js`) -/

/-- Milliseconds since the epoch, the value of a JS `Date`. -/
abbrev Time := Nat

/-- One day in milliseconds. -/
def dayMs : Nat := 86400000

/-- Seven days in milliseconds: the temporary-block length produced by
`blockUntil.setDate(blockUntil.getDate() + 7)`. -/
def sevenDaysMs : Nat := 7 * dayMs

/-- One element of `user.forumWarningHistory`. -/
structure HistoryEntry where
  date : Time
  reason : String
  content : String
deriving DecidableEq, Repr

/-- The moderation-relevant slice of the persisted user record. -/
structure UserState where
  forumWarnings : Nat
  forumWarningHistory : List HistoryEntry
  isBlockedFromForum : Bool
  forumBlockedUntil : Option Time
deriving DecidableEq, Repr

/-- The zero-valued state a fresh account starts with. -/
def zeroUserState : UserState := ⟨0, [], false, none⟩

/-- Discriminated outcome of `handleContentModeration`, carrying the
fields of the JS result object for its branch. -/
inductive ModOutcome where
  | noAction
  | warned (warnings : Nat) (message : String) (detectedWords : List String)
  | blockedTemporary (warnings : Nat) (message : String) (blockedUntil : Time)
  | blockedPermanent (warnings : Nat) (message : String)
deriving DecidableEq, Repr

/-- Message of the permanent-block branch of the ledger. -/
def permMessage : String :=
  "You have been permanently blocked from the forum due to repeated violations."

/-- Message of the temporary-block branch of the ledger. -/
def tempMessage : String :=
  "You have been temporarily blocked from the forum for 7 days due to repeated violations."

/-- Message of the warn branch, interpolating the current warning count. -/
def warnMessage (w : Nat) : String :=
  "Warning: Your content contains inappropriate language. You have " ++
    toString w ++ " warning(s). After 3 warnings, you will be permanently blocked."

/-- The `reason` string pushed into the warning history. -/
def historyReason (dw : List String) : String :=
  "Detected abusive language: " ++ String.intercalate ", " dw

/-- The source's `handleContentModeration`: scan, and on a flagged result
increment the warning count, append a history entry, then branch on the
new count (`>= 3` permanent, `=== 2` temporary 7-day block, else warn). -/
def handleContentModeration (u : UserState) (content title : String)
    (now : Time) : UserState × ModOutcome :=
  let mr := moderateContent content title
  if mr.isAbusive then
    let w := u.forumWarnings + 1
    let u1 : UserState :=
      { u with
        forumWarnings := w
        forumWarningHistory := u.forumWarningHistory ++
          [⟨now, historyReason mr.detectedWords, fullText content title⟩] }
    if 3 ≤ w then
      ({ u1 with isBlockedFromForum := true },
        .blockedPermanent w permMessage)
    else if w = 2 then
      ({ u1 with forumBlockedUntil := some (now + sevenDaysMs) },
        .blockedTemporary w tempMessage (now + sevenDaysMs))
    else
      (u1, .warned w (warnMessage w) mr.detectedWords)
  else
    (u, .noAction)

/-- Result of the `checkForumAccess` middleware, as seen by the caller. -/
inductive AccessResult where
  | deniedPermanent (warnings : Nat)
  | deniedTemporary (daysRemaining : Nat) (blockedUntil : Time)
      (warnings : Nat)
  | allowed
deriving DecidableEq, Repr

/-- `Math.ceil((until - now) / dayMs)` on integer milliseconds. -/
def ceilDay (diff : Nat) : Nat := (diff + dayMs - 1) / dayMs

/-- The source's `checkForumAccess`: deny permanently when
`isBlockedFromForum`; otherwise deny temporarily while
`forumBlockedUntil` lies in the future, reporting the ceiling of the
remaining days; otherwise clear an expired block and allow. -/
def checkForumAccess (u : UserState) (now : Time) :
    UserState × AccessResult :=
  if u.isBlockedFromForum then
    (u, .deniedPermanent u.forumWarnings)
  else
    match u.forumBlockedUntil with
    | some bu =>
      if now < bu then
        (u, .deniedTemporary (ceilDay (bu - now)) bu u.forumWarnings)
      else
        ({ u with forumBlockedUntil := none }, .allowed)
    | none => (u, .allowed)

/-- States reachable from the zero-valued initial state by ledger calls. -/
inductive ReachableMod : UserState → Prop where
  | init : ReachableMod zeroUserState
  | step (u : UserState) (content title : String) (now : Time) :
      ReachableMod u →
      ReachableMod (handleContentModeration u content title now).1

/-! ### Ledger step lemmas -/

theorem hCM_clean {content title : String}
    (hf : (moderateContent content title).isAbusive = false)
    (u : UserState) (now : Time) :
    handleContentModeration u content title now = (u, .noAction) := by
  rw [handleContentModeration]
  simp [hf]

theorem hCM_flagged {content title : String}
    (hf : (moderateContent content title).isAbusive = true)
    (u : UserState) (now : Time) :
    handleContentModeration u content title now =
      (let w := u.forumWarnings + 1
       let u1 : UserState :=
        { u with
          forumWarnings := w
          forumWarningHistory := u.forumWarningHistory ++
            [⟨now, historyReason (moderateContent content title).detectedWords,
              fullText content title⟩] }
       if 3 ≤ w then
        ({ u1 with isBlockedFromForum := true },
          .blockedPermanent w permMessage)
       else if w = 2 then
        ({ u1 with forumBlockedUntil := some (now + sevenDaysMs) },
          .blockedTemporary w tempMessage (now + sevenDaysMs))
       else
        (u1, .warned w (warnMessage w)
          (moderateContent content title).detectedWords)) := by
  rw [handleContentModeration]
  simp [hf]

theorem hCM_w0 {content title : String}
    (hf : (moderateContent content title).isAbusive = true)
    {u : UserState} (h0 : u.forumWarnings = 0) (now : Time) :
    handleContentModeration u content title now =
      ({ u with
          forumWarnings := 1
          forumWarningHistory := u.forumWarningHistory ++
            [⟨now, historyReason (moderateContent content title).detectedWords,
              fullText content title⟩] },
        .warned 1 (warnMessage 1)
          (moderateContent content title).detectedWords) := by
  rw [hCM_flagged hf]
  simp [h0]

theorem hCM_w1 {content title : String}
    (hf : (moderateContent content title).isAbusive = true)
    {u : UserState} (h1 : u.forumWarnings = 1) (now : Time) :
    handleContentModeration u content title now =
      ({ u with
          forumWarnings := 2
          forumWarningHistory := u.forumWarningHistory ++
            [⟨now, historyReason (moderateContent content title).detectedWords,
              fullText content title⟩]
          forumBlockedUntil := some (now + sevenDaysMs) },
        .blockedTemporary 2 tempMessage (now + sevenDaysMs)) := by
  rw [hCM_flagged hf]
  simp [h1]

theorem hCM_w2p {content title : String}
    (hf : (moderateContent content title).isAbusive = true)
    {u : UserState} (h2 : 2 ≤ u.forumWarnings) (now : Time) :
    handleContentModeration u content title now =
      ({ u with
          forumWarnings := u.forumWarnings + 1
          forumWarningHistory := u.forumWarningHistory ++
            [⟨now, historyReason (moderateContent content title).detectedWords,
              fullText content title⟩]
          isBlockedFromForum := true },
        .blockedPermanent (u.forumWarnings + 1) permMessage) := by
  rw [hCM_flagged hf]
  have h3 : 3 ≤ u.forumWarnings + 1 := by omega
  simp [h3]

theorem hCM_mono (u : UserState) (content title : String) (now : Time) :
    u.forumWarnings ≤
      (handleContentModeration u content title now).1.forumWarnings := by
  by_cases hf : (moderateContent content title).isAbusive = true
  · rw [hCM_flagged hf]
    by_cases h3 : 3 ≤ u.forumWarnings + 1
    · simp [h3]
    · by_cases h2 : u.forumWarnings + 1 = 2
      · simp [h3, h2]
        omega
      · simp [h3, h2]
  · have hf' : (moderateContent content title).isAbusive = false := by
      simpa using hf
    rw [hCM_clean hf']

theorem hCM_blocked (u : UserState) (content title : String) (now : Time) :
    (handleContentModeration u content title now).1.isBlockedFromForum =
      true →
    u.isBlockedFromForum = true ∨
      3 ≤ (handleContentModeration u content title now).1.forumWarnings := by
  by_cases hf : (moderateContent content title).isAbusive = true
  · rw [hCM_flagged hf]
    by_cases h3 : 3 ≤ u.forumWarnings + 1
    · intro _
      right
      simp [h3]
    · by_cases h2 : u.forumWarnings + 1 = 2
      · simp [h3, h2]
      · simp [h3, h2]
  · have hf' : (moderateContent content title).isAbusive = false := by
      simpa using hf
    rw [hCM_clean hf']
    exact fun h => Or.inl h

theorem hCM_blockUntil (u : UserState) (content title : String)
    (now : Time) :
    (handleContentModeration u content title now).1.forumBlockedUntil ≠
      u.forumBlockedUntil →
    (handleContentModeration u content title now).1.forumWarnings = 2 ∧
      u.forumWarnings = 1 := by
  by_cases hf : (moderateContent content title).isAbusive = true
  · rw [hCM_flagged hf]
    by_cases h3 : 3 ≤ u.forumWarnings + 1
    · intro h
      simp [h3] at h
    · by_cases h2 : u.forumWarnings + 1 = 2
      · intro _
        constructor
        · simp [h3, h2]
        · omega
      · intro h
        simp [h3, h2] at h
  · have hf' : (moderateContent content title).isAbusive = false := by
      simpa using hf
    rw [hCM_clean hf']
    intro h
    simp at h

/-! ### Remaining scanner helpers -/

/-- `String.prototype.includes` on whole strings. -/
def strIncludes (needle hay : String) : Bool :=
  segCheck needle.data hay.data

theorem abusiveWords_lower : ∀ w ∈ abusiveWords,
    w.data.map toLowerCh = w.data := by decide

theorem abusiveWords_ne_nil : ∀ w ∈ abusiveWords, w.data ≠ [] := by decide

theorem spam_token_not_listed : "spam_pattern" ∉ abusiveWords := by decide

theorem seg_ne_nil {w t : List Char} (h : ContainsSeg w t) (hw : w ≠ []) :
    t ≠ [] := by
  obtain ⟨l, r, rfl⟩ := h
  simp [hw]

theorem spam_token_mem_iff (s : String) (h : s.data.isEmpty = false) :
    "spam_pattern" ∈ (containsAbusiveLanguage (.str s)).detectedWords ↔
      spamFlag s.data = true := by
  rw [scan_str_ne s h]
  show "spam_pattern" ∈ dedupFirst (rawDetected s) ↔ _
  rw [mem_dedupFirst, rawDetected]
  have hnh : "spam_pattern" ∉ scanWordHits (normalizeText s.data) := by
    intro hmem
    exact spam_token_not_listed (List.mem_filter.mp hmem).1
  by_cases hsf : spamFlag s.data = true
  · simp [hsf]
  · have hsf' : spamFlag s.data = false := by simpa using hsf
    simp [hsf', hnh]

/-- A term whose normalization is the single word character `ch` is
detected whenever some character of the text lowercases to `ch`. -/
theorem letter_detect (w : String) (ch : Char) (hw : w ∈ abusiveWords)
    (hnorm : normalizeText w.data = [ch])
    (hch : isWordChar ch = true) (hsp : isSpaceChar ch = false)
    {s : String} {c : Char} (hc : c ∈ s.data) (hlow : toLowerCh c = ch) :
    (containsAbusiveLanguage (.str s)).isAbusive = true ∧
      w ∈ (containsAbusiveLanguage (.str s)).detectedWords := by
  have hsne : s.data ≠ [] := List.ne_nil_of_mem hc
  have hmono := seg_normalize_mono (ContainsSeg.of_mem hc)
  have hpc : preprocess c = ch := by
    rw [preprocess, hlow, ppKeep, if_pos (by simp [hch])]
  have hone : normalizeText [c] = [ch] := by
    rw [normalizeText]
    rw [show [c].map preprocess = [ch] by simp [hpc]]
    rw [toks_cons_nonspace hsp]
    simp [toks_nil, joinT_one, List.takeWhile, List.dropWhile]
  rw [hone, ← hnorm] at hmono
  exact scan_detect hw hsne hmono

/-- A term of the list occurring verbatim in the raw text is detected. -/
theorem verbatim_term_detect {w : String} (hw : w ∈ abusiveWords)
    {s : String} (hs : ContainsSeg w.data s.data) :
    (containsAbusiveLanguage (.str s)).isAbusive = true ∧
      w ∈ (containsAbusiveLanguage (.str s)).detectedWords :=
  scan_detect hw (seg_ne_nil hs (abusiveWords_ne_nil w hw))
    (seg_normalize_mono hs)

/-! ### Concrete states used by the witnesses -/

/-- State after one flagged submission from the zero state. -/
def demoS1 : UserState :=
  (handleContentModeration zeroUserState "damn" "" 0).1

/-- State after two flagged submissions from the zero state. -/
def demoS2 : UserState := (handleContentModeration demoS1 "damn" "" 1).1

/-- State after three flagged submissions from the zero state. -/
def demoS3 : UserState := (handleContentModeration demoS2 "damn" "" 2).1

/-- Outcome of the first flagged submission. -/
def demoO1 : ModOutcome :=
  (handleContentModeration zeroUserState "damn" "" 0).2

/-- Outcome of the second flagged submission. -/
def demoO2 : ModOutcome := (handleContentModeration demoS1 "damn" "" 1).2

/-- Outcome of the third flagged submission. -/
def demoO3 : ModOutcome := (handleContentModeration demoS2 "damn" "" 2).2

/-- A permanently blocked user record. -/
def demoPermUser : UserState := ⟨5, [], true, none⟩

/-- A temporarily blocked user record (blocked until two days in). -/
def demoTempUser : UserState := ⟨2, [], false, some (2 * dayMs)⟩

/-! ### Claims -/

/-- Claim C1: from any state with `warningCount = 0`, three consecutive
flagged ledger calls produce, in order, a `warned` outcome reading count
1, a `temporarily blocked` outcome reading count 2 with
`temporaryBlockUntil = now + 7 days`, and a `permanently blocked` outcome
reading count 3, each call appending one history entry. -/
theorem warning_sequence_three_strikes
    (u0 : UserState) (h0 : u0.forumWarnings = 0)
    (c1 t1 c2 t2 c3 t3 : String) (n1 n2 n3 : Time)
    (hf1 : (moderateContent c1 t1).isAbusive = true)
    (hf2 : (moderateContent c2 t2).isAbusive = true)
    (hf3 : (moderateContent c3 t3).isAbusive = true)
    (s1 s2 s3 : UserState) (o1 o2 o3 : ModOutcome)
    (e1 : handleContentModeration u0 c1 t1 n1 = (s1, o1))
    (e2 : handleContentModeration s1 c2 t2 n2 = (s2, o2))
    (e3 : handleContentModeration s2 c3 t3 n3 = (s3, o3)) :
    o1 = .warned 1 (warnMessage 1) (moderateContent c1 t1).detectedWords ∧
    s1.forumWarnings = 1 ∧
    s1.forumWarningHistory.length = u0.forumWarningHistory.length + 1 ∧
    o2 = .blockedTemporary 2 tempMessage (n2 + sevenDaysMs) ∧
    s2.forumWarnings = 2 ∧
    s2.forumBlockedUntil = some (n2 + sevenDaysMs) ∧
    s2.forumWarningHistory.length = s1.forumWarningHistory.length + 1 ∧
    o3 = .blockedPermanent 3 permMessage ∧
    s3.forumWarnings = 3 ∧
    s3.isBlockedFromForum = true ∧
    s3.forumWarningHistory.length = s2.forumWarningHistory.length + 1 := by
  rw [hCM_w0 hf1 h0 n1] at e1
  injection e1 with hs1 ho1
  subst hs1
  subst ho1
  rw [hCM_w1 hf2 (by simp) n2] at e2
  injection e2 with hs2 ho2
  subst hs2
  subst ho2
  rw [hCM_w2p hf3 (by simp) n3] at e3
  injection e3 with hs3 ho3
  subst hs3
  subst ho3
  refine ⟨rfl, by simp, by simp, rfl, by simp, by simp, by simp,
    by simp, by simp, by simp, by simp⟩

/-- Witness for C1 at the zero state with the flagged content "damn". -/
theorem warning_sequence_three_strikes_witness :
    demoO1 = .warned 1 (warnMessage 1)
      (moderateContent "damn" "").detectedWords ∧
    demoS1.forumWarnings = 1 ∧
    demoS1.forumWarningHistory.length =
      zeroUserState.forumWarningHistory.length + 1 ∧
    demoO2 = .blockedTemporary 2 tempMessage (1 + sevenDaysMs) ∧
    demoS2.forumWarnings = 2 ∧
    demoS2.forumBlockedUntil = some (1 + sevenDaysMs) ∧
    demoS2.forumWarningHistory.length =
      demoS1.forumWarningHistory.length + 1 ∧
    demoO3 = .blockedPermanent 3 permMessage ∧
    demoS3.forumWarnings = 3 ∧
    demoS3.isBlockedFromForum = true ∧
    demoS3.forumWarningHistory.length =
      demoS2.forumWarningHistory.length + 1 :=
  warning_sequence_three_strikes zeroUserState rfl "damn" "" "damn" ""
    "damn" "" 0 1 2 (by decide) (by decide) (by decide)
    demoS1 demoS2 demoS3 demoO1 demoO2 demoO3 rfl rfl rfl

/-- Claim C2: in every state reachable from the zero state by ledger
calls, `permanentlyBlocked` implies `warningCount ≥ 3`; and a ledger call
changes `temporaryBlockUntil` only when it moves the count from 1 to
exactly 2. -/
theorem moderation_invariants :
    (∀ u : UserState, ReachableMod u → u.isBlockedFromForum = true →
      3 ≤ u.forumWarnings) ∧
    (∀ (u : UserState) (content title : String) (now : Time),
      (handleContentModeration u content title now).1.forumBlockedUntil ≠
        u.forumBlockedUntil →
      (handleContentModeration u content title now).1.forumWarnings = 2 ∧
        u.forumWarnings = 1) := by
  constructor
  · intro u hr
    induction hr with
    | init => intro h; simp [zeroUserState] at h
    | step u c t n hr ih =>
      intro hb
      rcases hCM_blocked u c t n hb with h | h
      · exact le_trans (ih h) (hCM_mono u c t n)
      · exact h
  · exact hCM_blockUntil

/-- Witness for C2: the state after three flagged calls is reachable and
blocked with count ≥ 3, and the second call changed the block-until field
while moving the count from 1 to 2. -/
theorem moderation_invariants_witness :
    3 ≤ demoS3.forumWarnings ∧
    ((handleContentModeration demoS1 "damn" "" 1).1.forumWarnings = 2 ∧
      demoS1.forumWarnings = 1) :=
  ⟨moderation_invariants.1 demoS3
      (.step _ _ _ _ (.step _ _ _ _ (.step _ _ _ _ .init))) (by decide),
    moderation_invariants.2 demoS1 "damn" "" 1 (by decide)⟩

/-- Claim C3: a ledger call never decreases `warningCount`, for any
starting state and any scan result. -/
theorem warning_count_monotone :
    ∀ (u : UserState) (content title : String) (now : Time),
      u.forumWarnings ≤
        (handleContentModeration u content title now).1.forumWarnings :=
  hCM_mono

/-- Claim C6: a ledger call on a clean scan result returns the state
unchanged together with the no-action outcome. -/
theorem clean_scan_no_mutation :
    ∀ (u : UserState) (content title : String) (now : Time),
      (moderateContent content title).isAbusive = false →
      handleContentModeration u content title now = (u, .noAction) :=
  fun u _ _ n hf => hCM_clean hf u n

/-- Witness for C6 on the clean content "good morning". -/
theorem clean_scan_no_mutation_witness :
    handleContentModeration zeroUserState "good morning" "" 0 =
      (zeroUserState, .noAction) :=
  clean_scan_no_mutation zeroUserState "good morning" "" 0 (by decide)

/-- Claim C4: every text containing a listed term contiguously, in any
casing, is flagged with that term in the detected list.  (The separation
by punctuation the spec allows is not even needed: the code does plain
substring matching.) -/
theorem listed_term_detected
    (w : String) (hw : w ∈ abusiveWords) (s : String)
    (pre mid post : List Char)
    (hs : s.data = pre ++ mid ++ post)
    (hmid : mid.map toLowerCh = w.data) :
    (containsAbusiveLanguage (.str s)).isAbusive = true ∧
      w ∈ (containsAbusiveLanguage (.str s)).detectedWords := by
  have hwne : w.data ≠ [] := abusiveWords_ne_nil w hw
  have hmidne : mid ≠ [] := by
    intro h
    rw [h] at hmid
    exact hwne hmid.symm
  have hsne : s.data ≠ [] := by
    rw [hs]
    intro h
    obtain ⟨hlm, _⟩ := List.append_eq_nil.mp h
    obtain ⟨_, hm⟩ := List.append_eq_nil.mp hlm
    exact hmidne hm
  have hppeq : mid.map preprocess = w.data.map preprocess := by
    have h1 : mid.map preprocess = (mid.map toLowerCh).map ppKeep := by
      rw [List.map_map]
      rfl
    have h2 : w.data.map preprocess = (w.data.map toLowerCh).map ppKeep := by
      rw [List.map_map]
      rfl
    rw [h1, h2, hmid, abusiveWords_lower w hw]
  have hnorm : normalizeText mid = normalizeText w.data := by
    rw [normalizeText, normalizeText, hppeq]
  have hseg : ContainsSeg (normalizeText w.data) (normalizeText s.data) := by
    rw [← hnorm]
    exact seg_normalize_mono ⟨pre, post, hs⟩
  exact scan_detect hw hsne hseg

/-- Witness for C4: the phrase term "you should die" in mixed casing
inside a longer text. -/
theorem listed_term_detected_witness :
    (containsAbusiveLanguage (.str "You Should DIE now")).isAbusive =
      true ∧
    "you should die" ∈
      (containsAbusiveLanguage (.str "You Should DIE now")).detectedWords :=
  listed_term_detected "you should die" (by decide) "You Should DIE now"
    [] "You Should DIE".data " now".data (by decide) (by decide)

/-- Claim C5: the access gate denies permanently when
`permanentlyBlocked`; otherwise denies temporarily while
`temporaryBlockUntil` is in the future, reporting the ceiling of the
remaining days; otherwise allows, clearing an expired block so that a
second check is a no-op; and `ceilDay` is the integer ceiling. -/
theorem access_gate_spec :
    (∀ (u : UserState) (now : Time), u.isBlockedFromForum = true →
      checkForumAccess u now = (u, .deniedPermanent u.forumWarnings)) ∧
    (∀ (u : UserState) (now bu : Time), u.isBlockedFromForum = false →
      u.forumBlockedUntil = some bu → now < bu →
      checkForumAccess u now =
        (u, .deniedTemporary (ceilDay (bu - now)) bu u.forumWarnings)) ∧
    (∀ (u : UserState) (now bu : Time), u.isBlockedFromForum = false →
      u.forumBlockedUntil = some bu → bu ≤ now →
      checkForumAccess u now =
        ({ u with forumBlockedUntil := none }, .allowed) ∧
      checkForumAccess { u with forumBlockedUntil := none } now =
        ({ u with forumBlockedUntil := none }, .allowed)) ∧
    (∀ (u : UserState) (now : Time), u.isBlockedFromForum = false →
      u.forumBlockedUntil = none →
      checkForumAccess u now = (u, .allowed)) ∧
    (∀ diff : Nat, 0 < diff →
      diff ≤ ceilDay diff * dayMs ∧ (ceilDay diff - 1) * dayMs < diff) := by
  refine ⟨?_, ?_, ?_, ?_, ?_⟩
  · intro u now h
    rw [checkForumAccess, if_pos h]
  · intro u now bu hb hbu hlt
    rw [checkForumAccess, if_neg (by simp [hb]), hbu]
    simp [hlt]
  · intro u now bu hb hbu hge
    have hnl : ¬ now < bu := Nat.not_lt.mpr hge
    constructor
    · rw [checkForumAccess, if_neg (by simp [hb]), hbu]
      simp [hnl]
    · rw [checkForumAccess]
      simp [hb]
  · intro u now hb hbu
    rw [checkForumAccess, if_neg (by simp [hb]), hbu]
  · intro diff hpos
    simp only [ceilDay, dayMs]
    omega

/-- Witness for C5 on concrete blocked, expiring and clear states. -/
theorem access_gate_spec_witness :
    checkForumAccess demoPermUser 0 =
      (demoPermUser, .deniedPermanent 5) ∧
    checkForumAccess demoTempUser 0 =
      (demoTempUser, .deniedTemporary 2 (2 * dayMs) 2) ∧
    (checkForumAccess demoTempUser (2 * dayMs) =
      ({ demoTempUser with forumBlockedUntil := none }, .allowed) ∧
     checkForumAccess { demoTempUser with forumBlockedUntil := none }
        (2 * dayMs) =
      ({ demoTempUser with forumBlockedUntil := none }, .allowed)) ∧
    checkForumAccess zeroUserState 0 = (zeroUserState, .allowed) ∧
    (1 ≤ ceilDay 1 * dayMs ∧ (ceilDay 1 - 1) * dayMs < 1) :=
  ⟨access_gate_spec.1 demoPermUser 0 rfl,
   access_gate_spec.2.1 demoTempUser 0 (2 * dayMs) rfl rfl (by decide),
   access_gate_spec.2.2.1 demoTempUser (2 * dayMs) (2 * dayMs) rfl rfl
     le_rfl,
   access_gate_spec.2.2.2.1 zeroUserState 0 rfl rfl,
   access_gate_spec.2.2.2.2 1 Nat.one_pos⟩

/-- Claim C7 counterexample: five consecutive newlines are a single
character repeated five times, yet the scanner does not flag
`spam_pattern` (the regex `.` does not match line terminators). -/
theorem spam_pattern_counterexample :
    ("\n\n\n\n\n" : String).data = List.replicate 5 '\n' ∧
    "spam_pattern" ∉
      (containsAbusiveLanguage (.str "\n\n\n\n\n")).detectedWords :=
  ⟨by decide, by decide⟩

/-- Claim C7 (amended): `spam_pattern` is flagged exactly when more than
half the original characters are uppercase with length over 10, or some
single character other than a line terminator repeats 5+ times
consecutively (`hasRepeat5`); with the spec's concrete cases. -/
theorem spam_pattern_iff :
    (∀ s : String,
      ("spam_pattern" ∈ (containsAbusiveLanguage (.str s)).detectedWords ↔
        ((s.data.length < 2 * countCaps s.data ∧ 10 < s.data.length) ∨
          hasRepeat5 s.data = true))) ∧
    "spam_pattern" ∈
      (containsAbusiveLanguage (.str "AAAAAAAAAAAA")).detectedWords ∧
    "spam_pattern" ∈
      (containsAbusiveLanguage (.str "aaaaa")).detectedWords ∧
    "spam_pattern" ∉
      (containsAbusiveLanguage (.str "hello world")).detectedWords ∧
    "spam_pattern" ∉
      (containsAbusiveLanguage (.str "aaaa")).detectedWords := by
  refine ⟨?_, by decide, by decide, by decide, by decide⟩
  intro s
  by_cases hne : s.data.isEmpty = true
  · have hnil : s.data = [] := List.isEmpty_iff.mp hne
    rw [containsAbusiveLanguage, if_pos hne]
    simp [hnil, show hasRepeat5 [] = false from rfl]
  · have hne' : s.data.isEmpty = false := by simpa using hne
    rw [spam_token_mem_iff s hne', spamFlag]
    simp

/-- Claim C8: a non-string input and the (falsy) empty string both take
the early-return path: no exception, not flagged, empty detected list. -/
theorem scanner_invalid_input_safe :
    containsAbusiveLanguage .nonString =
      ⟨false, [], none⟩ ∧
    containsAbusiveLanguage (.str "") = ⟨false, [], none⟩ :=
  ⟨rfl, by decide⟩

/-- Claim C9 counterexample: at the 0 → 1 transition the remaining
count before a permanent block is 3 − 1 = 2, but the warned message
(which reads "You have 1 warning(s). After 3 warnings, ...") does not
contain the string "2". -/
theorem warn_message_counterexample :
    (handleContentModeration zeroUserState "damn" "" 0).2 =
      ModOutcome.warned 1 (warnMessage 1) ["damn", "a**", "a***"] ∧
    strIncludes (toString (3 - 1)) (warnMessage 1) = false :=
  ⟨by decide, by decide⟩

/-- Claim C9 (amended): whenever the ledger moves the count from 0 to 1,
the warned message includes the current warning count (1) and the
permanent-block threshold (3) — not the remaining-warnings count. -/
theorem warn_message_includes_counts
    (u : UserState) (content title : String) (now : Time)
    (w : Nat) (m : String) (dw : List String)
    (h0 : u.forumWarnings = 0)
    (he : (handleContentModeration u content title now).2 =
      .warned w m dw) :
    w = 1 ∧ strIncludes (toString w) m = true ∧
      strIncludes "3" m = true := by
  by_cases hf : (moderateContent content title).isAbusive = true
  · rw [hCM_w0 hf h0 now] at he
    injection he with hw hm hdw
    refine ⟨hw.symm, ?_, ?_⟩
    · rw [← hw, ← hm]
      decide
    · rw [← hm]
      decide
  · have hf' : (moderateContent content title).isAbusive = false := by
      simpa using hf
    rw [hCM_clean hf'] at he
    simp at he

/-- Witness for the amended C9 at the zero state. -/
theorem warn_message_includes_counts_witness :
    (1 : Nat) = 1 ∧ strIncludes (toString 1) (warnMessage 1) = true ∧
      strIncludes "3" (warnMessage 1) = true :=
  warn_message_includes_counts zeroUserState "damn" "" 0 1 (warnMessage 1)
    (moderateContent "damn" "").detectedWords rfl (by decide)

/-- Claim C10: the censored entries normalize to the single letters
a, b, f, s, so any text containing such a letter is flagged with the
censored entry detected; and substring matching flags `hell` inside
innocuous words such as `hello` or `shell`. -/
theorem censored_normalization_overmatch :
    (∀ (s : String) (c : Char), c ∈ s.data → toLowerCh c = 'a' →
      (containsAbusiveLanguage (.str s)).isAbusive = true ∧
        "a**" ∈ (containsAbusiveLanguage (.str s)).detectedWords ∧
        "a***" ∈ (containsAbusiveLanguage (.str s)).detectedWords) ∧
    (∀ (s : String) (c : Char), c ∈ s.data → toLowerCh c = 'b' →
      (containsAbusiveLanguage (.str s)).isAbusive = true ∧
        "b****" ∈ (containsAbusiveLanguage (.str s)).detectedWords) ∧
    (∀ (s : String) (c : Char), c ∈ s.data → toLowerCh c = 'f' →
      (containsAbusiveLanguage (.str s)).isAbusive = true ∧
        "f***" ∈ (containsAbusiveLanguage (.str s)).detectedWords) ∧
    (∀ (s : String) (c : Char), c ∈ s.data → toLowerCh c = 's' →
      (containsAbusiveLanguage (.str s)).isAbusive = true ∧
        "s***" ∈ (containsAbusiveLanguage (.str s)).detectedWords) ∧
    (∀ s : String, ContainsSeg "hello".data s.data →
      (containsAbusiveLanguage (.str s)).isAbusive = true ∧
        "hell" ∈ (containsAbusiveLanguage (.str s)).detectedWords) ∧
    (∀ s : String, ContainsSeg "shell".data s.data →
      (containsAbusiveLanguage (.str s)).isAbusive = true ∧
        "hell" ∈ (containsAbusiveLanguage (.str s)).detectedWords) := by
  refine ⟨?_, ?_, ?_, ?_, ?_, ?_⟩
  · intro s c hc hl
    have h1 := letter_detect "a**" 'a' (by decide)
      (by decide) (by decide) (by decide) hc hl
    have h2 := letter_detect "a***" 'a' (by decide)
      (by decide) (by decide) (by decide) hc hl
    exact ⟨h1.1, h1.2, h2.2⟩
  · intro s c hc hl
    exact letter_detect "b****" 'b' (by decide)
      (by decide) (by decide) (by decide) hc hl
  · intro s c hc hl
    exact letter_detect "f***" 'f' (by decide)
      (by decide) (by decide) (by decide) hc hl
  · intro s c hc hl
    exact letter_detect "s***" 's' (by decide)
      (by decide) (by decide) (by decide) hc hl
  · intro s hseg
    exact verbatim_term_detect (by decide)
      (ContainsSeg.trans
        (⟨[], ['o'], by decide⟩ : ContainsSeg "hell".data "hello".data)
        hseg)
  · intro s hseg
    exact verbatim_term_detect (by decide)
      (ContainsSeg.trans
        (⟨['s'], [], by decide⟩ : ContainsSeg "hell".data "shell".data)
        hseg)

/-- Witness for C10: "grape" is flagged through the letter a, and
"hello there" through the substring hell. -/
theorem censored_normalization_overmatch_witness :
    ((containsAbusiveLanguage (.str "grape")).isAbusive = true ∧
      "a**" ∈ (containsAbusiveLanguage (.str "grape")).detectedWords ∧
      "a***" ∈ (containsAbusiveLanguage (.str "grape")).detectedWords) ∧
    ((containsAbusiveLanguage (.str "hello there")).isAbusive = true ∧
      "hell" ∈
        (containsAbusiveLanguage (.str "hello there")).detectedWords) :=
  ⟨censored_normalization_overmatch.1 "grape" 'a' (by decide) (by decide),
   censored_normalization_overmatch.2.2.2.2.1 "hello there"
     ⟨[], " there".data, by decide⟩⟩

end FarmAI
